import Mathlib

/-!
Verification of the `ms_process` mzML stream-rewrite engine.

This file gives a shallow embedding of the parts of the repository that the
verified properties speak about:

* `src/ms_process/cv.py` — the controlled-vocabulary model (`Cv`, `CvRecord`,
  `get_cv`, `get_cv_record`, `add_cv`, `remove_cv`);
* `src/ms_process/processing/data.py` — the binary array codec
  (`BinaryDataArray.data` decode path and `BinaryDataArray.update_elem`
  encode path);
* `src/ms_process/processing/filters.py` — the mutating spectrum filters and
  predicates;
* `src/ms_process/processing/processor.py` — the streaming rewrite engine
  (`process_mzml` with its nested `_process_mzml` / `_write_index_and_end`).

Numeric arrays are embedded as `List ℚ` (the filters only compare, add,
multiply and divide sample values, so exact rational arithmetic mirrors the
comparisons the numpy code performs); byte strings as `List ℕ` with each
entry a byte value; output text as `List Char`, so that a byte offset is a
plain list index.  External libraries (zlib, base64, PyMSNumpress, scipy's
savgol_filter) are taken as function parameters, constrained only by their
documented contracts where a theorem needs them.  Python code that raises is
embedded as an `Option`-valued function returning `none` on the raising
paths.
-/

/-! ### Controlled-vocabulary model (`src/ms_process/cv.py`) -/

/-- `Cv` named tuple from `cv.py`: accession, optional name, vocabulary ref
(default `'MS'`).  `name` and `cv_ref` are `Option` because
`get_cv_record` rebuilds unit terms from attributes that may be absent. -/
structure Cv where
  accession : String
  name : Option String := none
  cv_ref : Option String := some "MS"
deriving DecidableEq

/-- `CvRecord` named tuple from `cv.py`. -/
structure CvRecord where
  cv : Cv
  unit_cv : Option Cv := none
  value : Option String := none
deriving DecidableEq

/-- One `cvParam` child element, modelled by its attributes (the only parts
of the node that `cv.py` reads or writes). -/
structure CvParamElem where
  cvRef : Option String := none
  accession : String
  name : Option String := none
  value : Option String := none
  unitName : Option String := none
  unitAccession : Option String := none
  unitCvRef : Option String := none
deriving DecidableEq

/-- An element, as far as `cv.py` is concerned: its ordered list of
`cvParam` children. -/
abbrev CvElem := List CvParamElem

/-- `get_cv`: first `cvParam` child (in document order) whose accession
matches, or `None`. -/
def get_cv (elem : CvElem) (accession : String) : Option CvParamElem :=
  (elem.filter (fun e => e.accession = accession)).head?

/-- `get_cv_record`: read value and unit attributes off the matching
`cvParam`.  In Python a missing param raises (attribute access on `None`);
here that is `none`. -/
def get_cv_record (elem : CvElem) (cv : Cv) : Option CvRecord :=
  match get_cv elem cv.accession with
  | none => none
  | some e =>
    let unit_cv : Option Cv :=
      match e.unitAccession with
      | some acc => some { accession := acc, name := e.unitName, cv_ref := e.unitCvRef }
      | none => none
    some { cv := cv, unit_cv := unit_cv, value := e.value }

/-- `has_cv`. -/
def has_cv (elem : CvElem) (cv : Cv) : Bool :=
  (get_cv elem cv.accession).isSome

/-- `remove_cv`: drop the first child whose accession matches (that is the
node `get_cv` found and `elem.remove` deleted); no-op when absent. -/
def remove_cv (elem : CvElem) (accession : String) : CvElem :=
  elem.eraseP (fun e => e.accession == accession)

/-- `add_cv`: remove any existing param for the term, then insert a fresh
`cvParam` as the first child.  Note the source writes `unitCvRef='MS'`
unconditionally, not the unit term's own vocabulary ref, and stores
`str(value)`; the `value` argument here is that string form. -/
def add_cv (elem : CvElem) (cv : Cv) (value : Option String) (unit_cv : Option Cv) : CvElem :=
  let elem1 := remove_cv elem cv.accession
  let e : CvParamElem :=
    { cvRef := some "MS"
      accession := cv.accession
      name := cv.name
      value := value
      unitName := match unit_cv with | some u => u.name | none => none
      unitAccession := match unit_cv with | some u => some u.accession | none => none
      unitCvRef := match unit_cv with | some _ => some "MS" | none => none }
  e :: elem1

/-- The `CvList` constants used by the claims. -/
def CvList.scan_start_time : Cv := { accession := "MS:1000016", name := some "scan start time" }

/-- `CvList.unit_second`, vocabulary ref `'UO'`. -/
def CvList.unit_second : Cv :=
  { accession := "UO:0000010", name := some "second", cv_ref := some "UO" }

/-- `CvList.unit_minute`, vocabulary ref `'UO'`. -/
def CvList.unit_minute : Cv :=
  { accession := "UO:0000031", name := some "minute", cv_ref := some "UO" }

/-! ### Binary array codec (`src/ms_process/processing/data.py`) -/

/-- `Precision` enum. -/
inductive Precision where
  | float32
  | float64
  | int32
deriving DecidableEq

/-- `Compression` enum. -/
inductive Compression where
  | none
  | zlib
  | numpress_linear
  | numpress_pic
deriving DecidableEq

/-- Byte width of the numpy dtype `dtype_from_precision` selects. -/
def dtype_width : Precision → ℕ
  | .float32 => 4
  | .float64 => 8
  | .int32 => 4

/-- Little-endian byte serialization of one array element, given as its
`8*w`-bit pattern (a natural below `2^(8*w)`). -/
def toBytesLE : ℕ → ℕ → List ℕ
  | 0, _ => []
  | w + 1, v => v % 256 :: toBytesLE w (v / 256)

/-- Little-endian reassembly of one array element from its bytes. -/
def fromBytesLE : List ℕ → ℕ
  | [] => 0
  | b :: bs => b + 256 * fromBytesLE bs

/-- `ndarray.tobytes()` for an array of `w`-byte elements: concatenation of
each element's little-endian bytes. -/
def arr_tobytes (w : ℕ) (xs : List ℕ) : List ℕ :=
  xs.flatMap (toBytesLE w)

/-- Split a byte list into consecutive `w`-byte chunks. -/
def chunkBytes (w : ℕ) (bs : List ℕ) : List (List ℕ) :=
  if _h : w = 0 then [] else
    match bs with
    | [] => []
    | b :: rest => (b :: rest).take w :: chunkBytes w ((b :: rest).drop w)
termination_by bs.length
decreasing_by simp_all [List.length_drop]; omega

/-- `np.frombuffer(bs, dtype)` for a `w`-byte dtype: fails (ValueError)
unless the buffer length is a multiple of the item size. -/
def np_frombuffer (w : ℕ) (bs : List ℕ) : Option (List ℕ) :=
  if w ≠ 0 ∧ bs.length % w = 0 then some ((chunkBytes w bs).map fromBytesLE) else none

/-- The external codecs `data.py` calls: base64, zlib and PyMSNumpress.
They are opaque collaborators of the engine; theorems that need them state
their documented contracts as hypotheses.  The numpress entry points carry
byte lists in and bit patterns out, matching how `update_elem` / `data`
pass arrays to them. -/
structure ExtCodecs where
  b64encode : List ℕ → List ℕ
  b64decode : List ℕ → List ℕ
  zlib_compress : List ℕ → List ℕ
  zlib_decompress : List ℕ → List ℕ
  encodeLinear : List ℕ → ℚ → List ℕ
  decodeLinear : List ℕ → List ℕ
  encodePic : List ℕ → List ℕ
  decodePic : List ℕ → List ℕ

/-- The byte-level core of `BinaryDataArray.update_elem`: serialize the
decoded buffer under the currently-set precision, branch on the
currently-set compression (numpress encoders consume the element values,
not the raw bytes; `encodeLinear` takes the fixed 700.0 scale), then
base64-encode. -/
def update_elem_bytes (ext : ExtCodecs) (precision : Precision) (compression : Compression)
    (data : List ℕ) : List ℕ :=
  let raw := arr_tobytes (dtype_width precision) data
  let data_bytes :=
    match compression with
    | .zlib => ext.zlib_compress raw
    | .numpress_pic => ext.encodePic data
    | .numpress_linear => ext.encodeLinear data 700
    | .none => raw
  ext.b64encode data_bytes

/-- The byte-level core of the `BinaryDataArray.data` property (the decode
path): base64-decode, then branch on compression. -/
def data_decode (ext : ExtCodecs) (precision : Precision) (compression : Compression)
    (data_raw : List ℕ) : Option (List ℕ) :=
  let data := ext.b64decode data_raw
  match compression with
  | .zlib => np_frombuffer (dtype_width precision) (ext.zlib_decompress data)
  | .numpress_linear => some (ext.decodeLinear data)
  | .numpress_pic => some (ext.decodePic data)
  | .none => np_frombuffer (dtype_width precision) data

/-! ### Filters and predicates (`src/ms_process/processing/filters.py`) -/

/-- `numpy.ndarray.min()`: `none` on an empty array (numpy raises a
ValueError there), otherwise the least element. -/
def np_min : List ℚ → Option ℚ
  | [] => none
  | x :: xs => some (xs.foldl min x)

/-- `numpy.ndarray.max()`: `none` on an empty array, otherwise the greatest
element. -/
def np_max : List ℚ → Option ℚ
  | [] => none
  | x :: xs => some (xs.foldl max x)

/-- `math.floor` on an exact rational (the reduced denominator is
positive, so Euclidean division of the numerator by it floors). -/
def qfloor (q : ℚ) : ℤ :=
  q.num / q.den

/-- `math.ceil` on an exact rational. -/
def qceil (q : ℚ) : ℤ :=
  -qfloor (-q)

/-- Boolean-mask indexing `xs[mask]` for a mask of the same length; both
numpy arrays involved are traversed in lockstep. -/
def filter_by_mask : List Bool → List ℚ → List ℚ
  | true :: ms, x :: xs => x :: filter_by_mask ms xs
  | false :: ms, _ :: xs => filter_by_mask ms xs
  | _, _ => []

/-- Full discrete convolution of `b` with the length-3 uniform kernel
`np.ones(3)/3`, expressed as the elementwise average of three shifted
copies of `b`; its length is `b.length + 2`. -/
def np_convolve_full3 (b : List ℚ) : List ℚ :=
  List.zipWith (fun s c => (s + c) / 3)
    (List.zipWith (fun x y => x + y) (b ++ [0, 0]) (0 :: (b ++ [0])))
    (0 :: 0 :: b)

/-- `np.convolve(b, np.ones(3)/3, mode='valid')`: the central slice of the
full convolution, of length `max n 3 - min n 3 + 1` (numpy slices the full
convolution the same way even when `n < 3`). -/
def np_convolve_valid3 (b : List ℚ) : List ℚ :=
  let n := b.length
  ((np_convolve_full3 b).drop (min n 3 - 1)).take (max n 3 - min n 3 + 1)

/-- `collapse_zero_intensity_mut`: convolve the `intensity > 0` indicator
with a length-3 uniform window in `'valid'` mode, glue a `True` sentinel on
each side, and keep the samples where the result is positive.  Boolean
indexing raises when the mask length differs from the array length, which
happens for inputs of length 1 or 2; that is the `none` branch. -/
def collapse_zero_intensity_mut (mz intensity : List ℚ) : Option (List ℚ × List ℚ) :=
  let cv := np_convolve_valid3 (intensity.map (fun v => if 0 < v then (1 : ℚ) else 0))
  let cv2 : List ℚ := 1 :: (cv ++ [1])
  let mask := cv2.map (fun x => decide (0 < x))
  if mask.length = mz.length ∧ mask.length = intensity.length then
    some (filter_by_mask mask mz, filter_by_mask mask intensity)
  else
    none

/-- `ElectricNoiseFilter` (the `filters.py` variant, the one the CLI
registry exposes): zero every intensity sample strictly below
`threshold_multiplier` times the least strictly-positive sample. -/
structure ElectricNoiseFilter where
  threshold_multiplier : ℚ

/-- `ElectricNoiseFilter.apply_mut` on the decoded intensity array.
`intensity.data[intensity.data > 0].min()` raises on an array with no
strictly positive sample; that is the `none` branch. -/
def ElectricNoiseFilter.apply_mut (f : ElectricNoiseFilter) (intensity : List ℚ) :
    Option (List ℚ) :=
  match np_min (intensity.filter (fun x => 0 < x)) with
  | none => none
  | some min_int =>
    let threshold := f.threshold_multiplier * min_int
    some (intensity.map (fun v => if v < threshold then 0 else v))

/-- `BaselineFilter`: subtract a fixed threshold, clamp at zero
(`np.clip(intensity - t, 0, inf)`), then collapse zero runs. -/
structure BaselineFilter where
  threshold : ℚ

/-- `BaselineFilter.apply_mut` on the decoded arrays. -/
def BaselineFilter.apply_mut (f : BaselineFilter) (mz intensity : List ℚ) :
    Option (List ℚ × List ℚ) :=
  collapse_zero_intensity_mut mz (intensity.map (fun v => max (v - f.threshold) 0))

/-- `MzWindowFilter`: keep the samples whose m/z lies in
`[mz_min, mz_max]`.  (The constructor takes `mz_max` first, as in the
source.) -/
structure MzWindowFilter where
  mz_max : ℚ
  mz_min : ℚ

/-- `MzWindowFilter.apply_mut`: the boolean mask is built from the m/z
array; indexing the intensity array with it raises unless the two lengths
agree. -/
def MzWindowFilter.apply_mut (f : MzWindowFilter) (mz intensity : List ℚ) :
    Option (List ℚ × List ℚ) :=
  let pred := mz.map (fun x => decide (f.mz_min ≤ x) && decide (x ≤ f.mz_max))
  if intensity.length = mz.length then
    some (filter_by_mask pred mz, filter_by_mask pred intensity)
  else
    none

/-- `np.arange(start, stop, step)` for a positive step: the points
`start + i*step` strictly below `stop` (the filters only call it with a
positive sampling rate). -/
def np_arange (start stop step : ℚ) : List ℚ :=
  if 0 < step then
    (List.range (qceil ((stop - start) / step)).toNat).map (fun (i : ℕ) => start + (i : ℚ) * step)
  else
    []

/-- `np.interp(x, xp, fp)` over the zipped node list: edge-clamped
piecewise-linear interpolation (assumes `xp` increasing, as numpy does).
The empty node list (numpy raises there) is given an arbitrary value; the
engine only interpolates over nonempty spectra. -/
def np_interp (x : ℚ) : List (ℚ × ℚ) → ℚ
  | [] => 0
  | [(_, y0)] => y0
  | (x0, y0) :: (x1, y1) :: rest =>
    if x ≤ x0 then y0
    else if x ≤ x1 then y0 + (y1 - y0) * (x - x0) / (x1 - x0)
    else np_interp x ((x1, y1) :: rest)

/-- `ResamplerFilter` (the `filters.py` variant): fixed-step grid anchored
at `central_mz`. -/
structure ResamplerFilter where
  sampling_rate : ℚ
  central_mz : ℚ

/-- `ResamplerFilter.apply_mut` on the decoded arrays: the low edge uses
`math.floor`, the high edge `math.ceil`; intensities come from `np.interp`
onto the new grid, then zero runs are collapsed.  `mz.data.min()` on an
empty array and `np.interp` with mismatched `xp`/`fp` lengths raise. -/
def ResamplerFilter.apply_mut (f : ResamplerFilter) (mz intensity : List ℚ) :
    Option (List ℚ × List ℚ) :=
  match np_min mz, np_max mz with
  | some mzmin, some mzmax =>
    let min_mz := f.central_mz -
      (qfloor ((f.central_mz - mzmin) / f.sampling_rate) : ℚ) * f.sampling_rate
    let max_mz := f.central_mz +
      (qceil ((mzmax - f.central_mz) / f.sampling_rate) : ℚ) * f.sampling_rate
    let new_mz := np_arange min_mz max_mz f.sampling_rate
    if mz.length = intensity.length then
      let new_intensity := new_mz.map (fun x => np_interp x (mz.zip intensity))
      collapse_zero_intensity_mut new_mz new_intensity
    else
      none
  | _, _ => none

/-- `SGolayFilter` parameters. -/
structure SGolayFilter where
  window_length : ℕ
  polyorder : ℕ

/-- `SGolayFilter.apply_mut`: no-op when the spectrum is shorter than the
window; otherwise smooth the intensity with scipy's `savgol_filter`
(passed in as the opaque `sg`), drop the samples whose smoothed intensity
is not positive together with their m/z samples, and collapse zero runs.
Boolean indexing of `mz` with the smoothed mask raises unless lengths
agree. -/
def SGolayFilter.apply_mut (f : SGolayFilter) (sg : List ℚ → List ℚ) (mz intensity : List ℚ) :
    Option (List ℚ × List ℚ) :=
  if intensity.length < f.window_length then
    some (mz, intensity)
  else
    let new_intensity := sg intensity
    let pred := new_intensity.map (fun v => decide (0 < v))
    if mz.length = new_intensity.length then
      collapse_zero_intensity_mut (filter_by_mask pred mz) (filter_by_mask pred new_intensity)
    else
      none

/-- `MsLevelFilter` (a predicate): retain spectra of a configured ms
level.  The spectrum argument appears below once the engine model defines
spectra; at the array-free level the test is just this comparison. -/
structure MsLevelFilter where
  ms_level : Int

/-- `TypeFilter.apply_mut` / `AsFloat32Filter.to_f32` on the decoded
arrays: `astype` is an elementwise dtype cast, modelled by opaque cast
functions applied samplewise. -/
def TypeFilter.apply_mut (cast_mz cast_intensity : ℚ → ℚ) (mz intensity : List ℚ) :
    Option (List ℚ × List ℚ) :=
  some (mz.map cast_mz, intensity.map cast_intensity)

/-- `CompressionFilter.apply_mut` on the decoded arrays: it forces the
decode and retargets the compression fields, leaving the sample values
untouched. -/
def CompressionFilter.apply_mut (mz intensity : List ℚ) : Option (List ℚ × List ℚ) :=
  some (mz, intensity)

/-- `ConvertRtToMinutes.apply_mut` on the decoded arrays: it rewrites only
the scan-time cvParam, never the arrays. -/
def ConvertRtToMinutes.apply_mut (mz intensity : List ℚ) : Option (List ℚ × List ℚ) :=
  some (mz, intensity)

/-- The closed set of concrete filters of `filters.py`, as they act on the
pair of decoded arrays.  `sgolay` carries scipy's smoother as an opaque
function; `typeChange` and `asF32` carry the dtype casts. -/
inductive FilterStep where
  | electric (f : ElectricNoiseFilter)
  | baseline (f : BaselineFilter)
  | mzWindow (f : MzWindowFilter)
  | resample (f : ResamplerFilter)
  | sgolay (f : SGolayFilter) (sg : List ℚ → List ℚ)
  | typeChange (cast_mz cast_intensity : ℚ → ℚ)
  | compressionChange
  | toMinutes
  | asF32 (cast : ℚ → ℚ)

/-- Dispatch a `FilterStep` to the corresponding `apply_mut`. -/
def FilterStep.apply : FilterStep → List ℚ → List ℚ → Option (List ℚ × List ℚ)
  | .electric f, mz, intensity => (f.apply_mut intensity).map (fun r => (mz, r))
  | .baseline f, mz, intensity => f.apply_mut mz intensity
  | .mzWindow f, mz, intensity => f.apply_mut mz intensity
  | .resample f, mz, intensity => f.apply_mut mz intensity
  | .sgolay f sg, mz, intensity => f.apply_mut sg mz intensity
  | .typeChange cm ci, mz, intensity => TypeFilter.apply_mut cm ci mz intensity
  | .compressionChange, mz, intensity => CompressionFilter.apply_mut mz intensity
  | .toMinutes, mz, intensity => ConvertRtToMinutes.apply_mut mz intensity
  | .asF32 c, mz, intensity => TypeFilter.apply_mut c c mz intensity

/-! ### Stream rewrite and index engine (`src/ms_process/processing/processor.py`) -/

/-- The spectrum element as the engine sees it after `parse_spectrum`: its
`id` / `index` attributes, ms level, decoded arrays, `defaultArrayLength`
attribute and `cvParam` children (`elem.insert(0, ...)` prepends to the
latter). -/
structure SpectrumElem where
  id : String
  index : String
  ms_level : Int
  mz : List ℚ
  intensity : List ℚ
  defaultArrayLength : Option String := none
  params : List CvParamElem := []
deriving DecidableEq

/-- Python's `needle in hay` substring test. -/
def str_contains (needle hay : String) : Bool :=
  (List.range (hay.data.length + 1)).any (fun i => needle.data.isPrefixOf (hay.data.drop i))

/-- The engine's id rewrite: when the original id carries no `'scan'`
marker, prefix `'scan={index} '` built from the `index` attribute. -/
def rewrite_spectrum_id (sp : SpectrumElem) : String :=
  if str_contains "scan" sp.id then sp.id else "scan=" ++ sp.index ++ " " ++ sp.id

/-- Run the configured filter list left to right; a raising filter aborts
the run.  Each engine filter is an in-place spectrum mutation, embedded as
`SpectrumElem → Option SpectrumElem`. -/
def apply_filters (filters : List (SpectrumElem → Option SpectrumElem)) (sp : SpectrumElem) :
    Option SpectrumElem :=
  filters.foldlM (fun s f => f s) sp

/-- The per-spectrum filter stage of `_process_mzml`: rewrite the id, then
run the filters only on ms-level-1 spectra (`update_elem` re-encoding is
part of the serialization, which the engine model keeps opaque). -/
def post_filter_spectrum (filters : List (SpectrumElem → Option SpectrumElem))
    (sp : SpectrumElem) : Option SpectrumElem :=
  let sp' := { sp with id := rewrite_spectrum_id sp }
  if sp'.ms_level = 1 then apply_filters filters sp' else some sp'

/-- The `cvparam(accession, value, name)` helper nested in
`_process_mzml`. -/
def mk_cvparam (accession value name : String) : CvParamElem :=
  { cvRef := some "MS", accession := accession, name := some name, value := some value }

/-- The element state written for a spectrum: `defaultArrayLength` is
refreshed from the (possibly filtered) intensity array, and the two
observed-m/z params are prepended (`insert(0, lowest)` then
`insert(0, highest)` leaves `highest` first). -/
def finalize_spectrum (sp : SpectrumElem) (mn mx : ℚ) : SpectrumElem :=
  { sp with
    defaultArrayLength := some (toString sp.intensity.length)
    params := mk_cvparam "MS:1000527" (toString mx) "highest observed m/z" ::
      mk_cvparam "MS:1000528" (toString mn) "lowest observed m/z" :: sp.params }

/-- One emitted spectrum: its final id, the byte offset recorded for it,
and the serialized bytes the engine wrote at that offset. -/
structure Emit where
  id : String
  offset : ℕ
  bytes : List Char
deriving DecidableEq

/-- Engine state: the output bytes so far, the `spectrum_offsets` table,
and the emission log pairing each table entry with the bytes written for
it. -/
structure EngState where
  out : List Char
  spectrum_offsets : List (String × ℕ)
  log : List Emit
deriving DecidableEq

/-- The spectrum branch of `_process_mzml`: record `out_f.tell()` before
consuming the subtree, rewrite the id, append `(id, offset)` to the offset
table, filter ms-level-1 spectra, refresh `defaultArrayLength`, prepend
the observed-m/z params (`mz_data.min()` raises on an empty post-filter
array), then write the serialized element and a newline.  `tostring` is
lxml's serializer, opaque to the engine. -/
def process_spectrum (filters : List (SpectrumElem → Option SpectrumElem))
    (tostring : SpectrumElem → List Char) (st : EngState) (sp0 : SpectrumElem) :
    Option EngState :=
  let offset := st.out.length
  let sid := rewrite_spectrum_id sp0
  let offsets := st.spectrum_offsets ++ [(sid, offset)]
  match post_filter_spectrum filters sp0 with
  | none => none
  | some sp1 =>
    match np_min sp1.mz, np_max sp1.mz with
    | some mn, some mx =>
      let sp3 := finalize_spectrum sp1 mn mx
      some { out := st.out ++ tostring sp3 ++ ['\n']
             spectrum_offsets := offsets
             log := st.log ++ [{ id := sid, offset := offset, bytes := tostring sp3 }] }
    | _, _ => none

/-- One line of the body phase: either a non-spectrum line, passed through
verbatim (and written once however many events it carries), or a whole
spectrum subtree, whose opening line is not copied. -/
inductive BodyItem where
  | plain (line : List Char)
  | spectrum (sp : SpectrumElem)

/-- The body loop of `_process_mzml` over the items before the closing
`</mzML>` line. -/
def process_body (filters : List (SpectrumElem → Option SpectrumElem))
    (tostring : SpectrumElem → List Char) : List BodyItem → EngState → Option EngState
  | [], st => some st
  | .plain line :: rest, st =>
    process_body filters tostring rest { st with out := st.out ++ line }
  | .spectrum sp :: rest, st =>
    (process_spectrum filters tostring st sp).bind (process_body filters tostring rest)

/-- The `<indexedmzML ...>` wrapper line `_process_header` writes in place
of the dropped prologue. -/
def indexedmzml_open : List Char :=
  ("<indexedmzML xmlns=\"http://psi.hupo.org/ms/mzml\" " ++
    "xmlns:xsi=\"http://www.w3.org/2001/XMLSchema-instance\" " ++
    "xsi:schemaLocation=\"http://psi.hupo.org/ms/mzml " ++
    "http://psidev.info/files/ms/mzML/xsd/mzML1.1.2_idx.xsd\">\n").data

/-- One `<offset idRef=...>` line of the trailing index. -/
def offset_line (sid : String) (offset : ℕ) : List Char :=
  ("    <offset idRef=\"" ++ sid ++ "\">" ++ toString offset ++ "</offset>\n").data

/-- `_write_index_and_end`: the whole trailer appended after the body,
given the offset table and the recorded index-list offset. -/
def index_trailer (offsets : List (String × ℕ)) (index_list_offset : ℕ) : List Char :=
  "<indexList count=\"1\">\n".data ++
  "  <index name=\"spectrum\">\n".data ++
  (offsets.map (fun p => offset_line p.1 p.2)).flatten ++
  "  </index>\n".data ++
  "</indexList>\n".data ++
  ("<indexListOffset>" ++ toString index_list_offset ++ "</indexListOffset>\n").data ++
  "</indexedmzML>\n".data

/-- `process_mzml`, driven over an already-line-structured document: the
prologue is replaced by the wrapper line, the `<mzML ...>` start line is
copied, the body is processed, the `</mzML>` line is copied, and the
trailer is appended with the index-list offset recorded first. -/
def process_mzml (filters : List (SpectrumElem → Option SpectrumElem))
    (tostring : SpectrumElem → List Char) (mzml_start_line : List Char)
    (body : List BodyItem) (mzml_end_line : List Char) : Option EngState :=
  let st0 : EngState :=
    { out := indexedmzml_open ++ mzml_start_line, spectrum_offsets := [], log := [] }
  (process_body filters tostring body st0).map (fun st1 =>
    let out2 := st1.out ++ mzml_end_line
    { st1 with out := out2 ++ index_trailer st1.spectrum_offsets out2.length })

/-! ### The predicate-aware engine

The command-line front end (`src/ms_process/cli/mzml.py`) splits the parsed
pipeline into filters and predicates and calls
`process_file(input, output, filters, predicates)`, but the `src/` tree only
contains the older `process_file(in, out, threshold_multiplier, mz_min_max)`
and the predicate-free `process_mzml`; the predicate-aware engine itself is
missing from `src/`.  The definitions below model it from the spec. -/

/-- A predicate, as `filters.py` types them: the candidate spectrum plus
the read-only trailing window of previously retained spectra. -/
abbrev SpectrumPredicate := SpectrumElem → List SpectrumElem → Bool

/-- `MsLevelFilter.apply` (from `filters.py`): retain iff the configured
level equals the spectrum's. -/
def MsLevelFilter.apply (f : MsLevelFilter) (sp : SpectrumElem)
    (_prev : List SpectrumElem) : Bool :=
  decide (f.ms_level = sp.ms_level)

/-- Modelled from the spec: the trailing window is a fixed-capacity FIFO of
the last N = 10 retained spectra; the oldest entry is evicted when a new
one is appended. -/
def window_push (w : List SpectrumElem) (sp : SpectrumElem) : List SpectrumElem :=
  if 10 ≤ w.length then w.drop 1 ++ [sp] else w ++ [sp]

/-- One emitted spectrum of the predicate-aware engine, additionally
tagged with the body position (document order) it came from. -/
structure EmitP where
  src_idx : ℕ
  id : String
  offset : ℕ
  bytes : List Char
deriving DecidableEq

/-- State of the predicate-aware engine.  Beyond the output bytes, the
offset table, the emission log and the trailing window, it keeps two
traces used by the absence/presence theorems: `decisions` records for each
body position holding a spectrum whether the predicates retained it, and
`writes` records the bytes each body item contributed to the output. -/
structure PredEngState where
  out : List Char
  spectrum_offsets : List (String × ℕ)
  log : List EmitP
  window : List SpectrumElem
  pos : ℕ
  decisions : List (ℕ × Bool)
  writes : List (List Char)
deriving DecidableEq

/-- Modelled from the spec: the per-spectrum step of the predicate-aware
engine (spec §4.6 body phase), whose implementation is missing from
`src/`.  Assign the stable id, evaluate every predicate against the
spectrum and the trailing window; if rejected, discard and continue
without writing or appending to the offset table; if accepted, run all
filters, rewrite the observed-m/z params only when the post-filter array
is non-empty, append to the trailing window, record
`(id, current offset)` and write the serialized element. -/
def process_spectrum_pred (preds : List SpectrumPredicate)
    (filters : List (SpectrumElem → Option SpectrumElem))
    (tostring : SpectrumElem → List Char) (st : PredEngState) (sp0 : SpectrumElem) :
    Option PredEngState :=
  let sid := rewrite_spectrum_id sp0
  let sp := { sp0 with id := sid }
  if preds.all (fun p => p sp st.window) then
    match apply_filters filters sp with
    | none => none
    | some sp1 =>
      let sp2 :=
        match np_min sp1.mz, np_max sp1.mz with
        | some mn, some mx => finalize_spectrum sp1 mn mx
        | _, _ => sp1
      let offset := st.out.length
      let chunk := tostring sp2 ++ ['\n']
      some { out := st.out ++ chunk
             spectrum_offsets := st.spectrum_offsets ++ [(sid, offset)]
             log := st.log ++ [{ src_idx := st.pos, id := sid, offset := offset,
                                 bytes := tostring sp2 }]
             window := window_push st.window sp2
             pos := st.pos + 1
             decisions := st.decisions ++ [(st.pos, true)]
             writes := st.writes ++ [chunk] }
  else
    some { st with
           pos := st.pos + 1
           decisions := st.decisions ++ [(st.pos, false)]
           writes := st.writes ++ [[]] }

/-- Modelled from the spec: the body loop of the predicate-aware engine;
non-spectrum lines are passed through verbatim. -/
def process_body_pred (preds : List SpectrumPredicate)
    (filters : List (SpectrumElem → Option SpectrumElem))
    (tostring : SpectrumElem → List Char) : List BodyItem → PredEngState → Option PredEngState
  | [], st => some st
  | .plain line :: rest, st =>
    process_body_pred preds filters tostring rest
      { st with out := st.out ++ line, pos := st.pos + 1, writes := st.writes ++ [line] }
  | .spectrum sp :: rest, st =>
    (process_spectrum_pred preds filters tostring st sp).bind
      (process_body_pred preds filters tostring rest)

/-- Modelled from the spec: the predicate-aware engine end to end, with
the same wrapper, copied boundary lines and index trailer as the
predicate-free `process_mzml`. -/
def process_mzml_pred (preds : List SpectrumPredicate)
    (filters : List (SpectrumElem → Option SpectrumElem))
    (tostring : SpectrumElem → List Char) (mzml_start_line : List Char)
    (body : List BodyItem) (mzml_end_line : List Char) : Option PredEngState :=
  let st0 : PredEngState :=
    { out := indexedmzml_open ++ mzml_start_line, spectrum_offsets := [], log := []
      window := [], pos := 0, decisions := [], writes := [] }
  (process_body_pred preds filters tostring body st0).map (fun st1 =>
    let out2 := st1.out ++ mzml_end_line
    { st1 with out := out2 ++ index_trailer st1.spectrum_offsets out2.length })

/-! ### Concrete instances used by witnesses and counterexamples -/

/-- Lift an array-pair filter to an engine filter mutating the spectrum's
decoded arrays in place. -/
def lift_array_filter (g : List ℚ → List ℚ → Option (List ℚ × List ℚ)) :
    SpectrumElem → Option SpectrumElem :=
  fun sp => (g sp.mz sp.intensity).map (fun r => { sp with mz := r.1, intensity := r.2 })

/-- A concrete stand-in for lxml's serializer, used to instantiate the
engine theorems. -/
def id_serializer : SpectrumElem → List Char :=
  fun sp => ("<spectrum id=\"" ++ sp.id ++ "\"/>").data

/-- External codecs instantiated with identities (they satisfy the
inverse contracts). -/
def trivial_codecs : ExtCodecs :=
  { b64encode := id, b64decode := id, zlib_compress := id, zlib_decompress := id
    encodeLinear := fun bs _ => bs, decodeLinear := id, encodePic := id, decodePic := id }

/-- A small spectrum whose id lacks a `'scan'` marker. -/
def sample_spectrum (idx : ℕ) (level : Int) : SpectrumElem :=
  { id := "controller=0 s" ++ toString idx, index := toString idx, ms_level := level
    mz := [100, 200], intensity := [1, 0] }

/-- A concrete body for the engine runs. -/
def c1_body : List BodyItem :=
  [.plain "<run>\n".data, .spectrum (sample_spectrum 0 2), .plain "<x/>\n".data,
   .spectrum (sample_spectrum 1 1), .plain "</run>\n".data]

/-- The state a concrete predicate-free run ends in. -/
def c1_state : EngState :=
  (process_mzml [] id_serializer "<mzML>\n".data c1_body "</mzML>\n".data).getD
    { out := [], spectrum_offsets := [], log := [] }

/-- An ms-level-1 predicate instance. -/
def c3_preds : List SpectrumPredicate :=
  [({ ms_level := 1 } : MsLevelFilter).apply]

/-- Three spectra with ms levels 1, 2, 1 (the spec's end-to-end predicate
scenario). -/
def c3_body : List BodyItem :=
  [.spectrum (sample_spectrum 0 1), .spectrum (sample_spectrum 1 2),
   .spectrum (sample_spectrum 2 1)]

/-- The state a concrete predicate-gated run ends in. -/
def c3_state : PredEngState :=
  (process_mzml_pred c3_preds [] id_serializer "<mzML>\n".data c3_body "</mzML>\n".data).getD
    { out := [], spectrum_offsets := [], log := [], window := [], pos := 0
      decisions := [], writes := [] }

/-- An m/z window filter whose window misses every sample, emptying the
arrays. -/
def c9_window_filter : SpectrumElem → Option SpectrumElem :=
  lift_array_filter (MzWindowFilter.apply_mut { mz_max := 700, mz_min := 600 })

/-- An ms-level-1 spectrum whose only m/z sample lies outside that
window. -/
def c9_spectrum : SpectrumElem :=
  { id := "s0", index := "0", ms_level := 1, mz := [500], intensity := [1] }

/-- The post-filter spectrum of the filter-free run on `c9_spectrum`. -/
def c9_sp1 : SpectrumElem :=
  (post_filter_spectrum [] c9_spectrum).getD c9_spectrum

/-! ### Codec round-trip (claim C2) -/

theorem toBytesLE_length (w v : ℕ) : (toBytesLE w v).length = w := by
  induction w generalizing v with
  | zero => simp [toBytesLE]
  | succ w ih => simp [toBytesLE, ih]

theorem toBytesLE_ne_nil (w v : ℕ) (hw : w ≠ 0) : toBytesLE w v ≠ [] := by
  intro h
  have := toBytesLE_length w v
  rw [h] at this
  simp at this
  exact hw this.symm

theorem fromBytesLE_toBytesLE (w v : ℕ) (h : v < 256 ^ w) :
    fromBytesLE (toBytesLE w v) = v := by
  induction w generalizing v with
  | zero => simp [pow_zero] at h; simp [toBytesLE, fromBytesLE, h]
  | succ w ih =>
    have hdiv : v / 256 < 256 ^ w := by
      rw [Nat.div_lt_iff_lt_mul (by norm_num : 0 < 256)]
      calc v < 256 ^ (w + 1) := h
        _ = 256 ^ w * 256 := by rw [pow_succ]
    simp [toBytesLE, fromBytesLE, ih _ hdiv]
    omega

theorem chunkBytes_cons (w : ℕ) (hw : w ≠ 0) (chunk rest : List ℕ)
    (hlen : chunk.length = w) :
    chunkBytes w (chunk ++ rest) = chunk :: chunkBytes w rest := by
  cases chunk with
  | nil => simp at hlen; exact absurd hlen.symm hw
  | cons b bs =>
    rw [chunkBytes.eq_def]
    simp only [hw, dite_false]
    have ht : ((b :: bs) ++ rest).take w = b :: bs := by
      rw [List.take_append_of_le_length (by rw [hlen])]
      rw [← hlen, List.take_length]
    have hd : ((b :: bs) ++ rest).drop w = rest := by
      rw [← hlen, List.drop_left]
    simp only [List.cons_append] at ht hd ⊢
    rw [ht, hd]

theorem chunkBytes_arr_tobytes (w : ℕ) (hw : w ≠ 0) (xs : List ℕ) :
    chunkBytes w (arr_tobytes w xs) = xs.map (toBytesLE w) := by
  induction xs with
  | nil =>
    rw [chunkBytes.eq_def]
    simp [arr_tobytes, hw]
  | cons x xs ih =>
    have : arr_tobytes w (x :: xs) = toBytesLE w x ++ arr_tobytes w xs := by
      simp [arr_tobytes]
    rw [this, chunkBytes_cons w hw _ _ (toBytesLE_length w x), ih]
    simp

theorem arr_tobytes_length (w : ℕ) (xs : List ℕ) :
    (arr_tobytes w xs).length = xs.length * w := by
  induction xs with
  | nil => simp [arr_tobytes]
  | cons x xs ih =>
    have : arr_tobytes w (x :: xs) = toBytesLE w x ++ arr_tobytes w xs := by
      simp [arr_tobytes]
    rw [this]
    simp [toBytesLE_length, ih]
    ring

theorem np_frombuffer_arr_tobytes (w : ℕ) (hw : w ≠ 0) (xs : List ℕ)
    (hx : ∀ v ∈ xs, v < 256 ^ w) :
    np_frombuffer w (arr_tobytes w xs) = some xs := by
  have hmod : (arr_tobytes w xs).length % w = 0 := by
    rw [arr_tobytes_length]
    exact Nat.mul_mod_left xs.length w
  rw [np_frombuffer, if_pos ⟨hw, hmod⟩, chunkBytes_arr_tobytes w hw xs, List.map_map]
  congr 1
  calc xs.map (fromBytesLE ∘ toBytesLE w)
      = xs.map id := List.map_congr_left (fun v hv => fromBytesLE_toBytesLE w v (hx v hv))
    _ = xs := List.map_id xs

/-- Claim C2: for every precision in `{float32, float64, int32}` and every
compression in `{none, zlib}`, decoding the bytes `update_elem` produces
for an array of that precision yields the array back bit-for-bit, given
the inverse contracts of the external base64 and zlib codecs (the lossy
numpress variants are exempted). -/
theorem codec_roundtrip_lossless (ext : ExtCodecs) (p : Precision) (c : Compression)
    (xs : List ℕ)
    (hc : c = Compression.none ∨ c = Compression.zlib)
    (hx : ∀ v ∈ xs, v < 2 ^ (8 * dtype_width p))
    (hb64 : ∀ bs, ext.b64decode (ext.b64encode bs) = bs)
    (hzlib : ∀ bs, ext.zlib_decompress (ext.zlib_compress bs) = bs) :
    data_decode ext p c (update_elem_bytes ext p c xs) = some xs := by
  have hw : dtype_width p ≠ 0 := by cases p <;> simp [dtype_width]
  have hx' : ∀ v ∈ xs, v < 256 ^ dtype_width p := by
    intro v hv
    have h := hx v hv
    calc v < 2 ^ (8 * dtype_width p) := h
      _ = 256 ^ dtype_width p := by rw [pow_mul]; norm_num
  rcases hc with rfl | rfl
  · rw [update_elem_bytes, data_decode]
    simp only [hb64]
    exact np_frombuffer_arr_tobytes _ hw xs hx'
  · rw [update_elem_bytes, data_decode]
    simp only [hb64, hzlib]
    exact np_frombuffer_arr_tobytes _ hw xs hx'

/-- Witness for C2: a concrete float32/zlib round-trip. -/
theorem codec_roundtrip_lossless_witness :
    data_decode trivial_codecs Precision.float32 Compression.zlib
      (update_elem_bytes trivial_codecs Precision.float32 Compression.zlib
        [5, 300, 4294967295]) = some [5, 300, 4294967295] :=
  codec_roundtrip_lossless trivial_codecs Precision.float32 Compression.zlib
    [5, 300, 4294967295] (Or.inr rfl) (by decide) (fun _ => rfl) (fun _ => rfl)

/-! ### Controlled-vocabulary round-trip (claim C8) -/

/-- Claim C8 counterexample: `add` with the second-unit term (vocabulary
ref `'UO'`) followed by `get` returns a unit whose vocabulary ref is
`'MS'`, not the unit term given to `add` — the full unit does not
round-trip. -/
theorem add_get_unit_ref_cex :
    (get_cv_record (add_cv [] CvList.scan_start_time (some "5.0") (some CvList.unit_second))
        CvList.scan_start_time).map (fun r => r.unit_cv) =
      some (some { accession := "UO:0000010", name := some "second", cv_ref := some "MS" }) ∧
    (get_cv_record (add_cv [] CvList.scan_start_time (some "5.0") (some CvList.unit_second))
        CvList.scan_start_time).map (fun r => r.unit_cv) ≠ some (some CvList.unit_second) := by
  constructor
  · rfl
  · decide

/-- Claim C8 amended: `add` followed immediately by `get` round-trips the
value and the unit's accession and name, but the unit's vocabulary ref is
always recorded as `'MS'` (so the unit term round-trips in full only when
its own vocabulary ref is `'MS'`). -/
theorem add_get_roundtrip_amended (elem : CvElem) (cv : Cv) (value : Option String)
    (unit_cv : Option Cv) :
    get_cv_record (add_cv elem cv value unit_cv) cv = some
      { cv := cv
        unit_cv := unit_cv.map
          (fun u => { accession := u.accession, name := u.name, cv_ref := some "MS" })
        value := value } := by
  cases unit_cv <;> simp [get_cv_record, add_cv, get_cv]

/-! ### Minimum/maximum helpers -/

theorem foldl_min_mem (l : List ℚ) (a : ℚ) : l.foldl min a ∈ a :: l := by
  induction l generalizing a with
  | nil => simp
  | cons x xs ih =>
    have h := ih (min a x)
    rcases List.mem_cons.mp h with h | h
    · rcases min_choice a x with h2 | h2 <;> rw [List.foldl_cons, h, h2] <;> simp
    · simp [List.foldl_cons, List.mem_cons.mpr (Or.inr (List.mem_cons.mpr (Or.inr h)))]

theorem foldl_min_le (l : List ℚ) (a : ℚ) :
    l.foldl min a ≤ a ∧ ∀ x ∈ l, l.foldl min a ≤ x := by
  induction l generalizing a with
  | nil => simp
  | cons y ys ih =>
    have h := ih (min a y)
    refine ⟨le_trans h.1 (min_le_left a y), ?_⟩
    intro x hx
    rcases List.mem_cons.mp hx with rfl | hx
    · exact le_trans h.1 (min_le_right a x)
    · exact h.2 x hx

theorem np_min_spec (l : List ℚ) (m : ℚ) (h : np_min l = some m) :
    m ∈ l ∧ ∀ x ∈ l, m ≤ x := by
  cases l with
  | nil => simp [np_min] at h
  | cons x xs =>
    simp only [np_min, Option.some.injEq] at h
    subst h
    refine ⟨foldl_min_mem xs x, ?_⟩
    intro y hy
    rcases List.mem_cons.mp hy with rfl | hy
    · exact (foldl_min_le xs y).1
    · exact (foldl_min_le xs x).2 y hy

theorem foldl_max_mem (l : List ℚ) (a : ℚ) : l.foldl max a ∈ a :: l := by
  induction l generalizing a with
  | nil => simp
  | cons x xs ih =>
    have h := ih (max a x)
    rcases List.mem_cons.mp h with h | h
    · rcases max_choice a x with h2 | h2 <;> rw [List.foldl_cons, h, h2] <;> simp
    · simp [List.foldl_cons, List.mem_cons.mpr (Or.inr (List.mem_cons.mpr (Or.inr h)))]

theorem foldl_max_ge (l : List ℚ) (a : ℚ) :
    a ≤ l.foldl max a ∧ ∀ x ∈ l, x ≤ l.foldl max a := by
  induction l generalizing a with
  | nil => simp
  | cons y ys ih =>
    have h := ih (max a y)
    refine ⟨le_trans (le_max_left a y) h.1, ?_⟩
    intro x hx
    rcases List.mem_cons.mp hx with rfl | hx
    · exact le_trans (le_max_right a x) h.1
    · exact h.2 x hx

theorem np_max_spec (l : List ℚ) (m : ℚ) (h : np_max l = some m) :
    m ∈ l ∧ ∀ x ∈ l, x ≤ m := by
  cases l with
  | nil => simp [np_max] at h
  | cons x xs =>
    simp only [np_max, Option.some.injEq] at h
    subst h
    refine ⟨foldl_max_mem xs x, ?_⟩
    intro y hy
    rcases List.mem_cons.mp hy with rfl | hy
    · exact (foldl_max_ge xs y).1
    · exact (foldl_max_ge xs x).2 y hy

theorem np_min_eq_none_iff (l : List ℚ) : np_min l = none ↔ l = [] := by
  cases l <;> simp [np_min]

/-! ### Noise-floor filter (claims C4 and C10) -/

/-- Claim C4: when the intensity array has a strictly positive sample, the
noise-floor filter with multiplier `k` zeroes exactly the samples strictly
below `k` times the least strictly positive sample `m` and leaves every
other sample unchanged (no subtraction). -/
theorem electric_noise_zeroes_below_threshold (k : ℚ) (intensity : List ℚ) (m : ℚ)
    (hm : np_min (intensity.filter (fun x => 0 < x)) = some m) :
    ({ threshold_multiplier := k } : ElectricNoiseFilter).apply_mut intensity =
      some (intensity.map (fun v => if v < k * m then 0 else v)) ∧
    m ∈ intensity ∧ 0 < m ∧ ∀ x ∈ intensity, 0 < x → m ≤ x := by
  have hspec := np_min_spec _ _ hm
  have hmem := List.mem_filter.mp hspec.1
  refine ⟨by simp [ElectricNoiseFilter.apply_mut, hm], hmem.1, by simpa using hmem.2, ?_⟩
  intro x hx hpos
  exact hspec.2 x (List.mem_filter.mpr ⟨hx, by simpa using hpos⟩)

/-- Witness for C4: the spec's end-to-end scenario, multiplier 3 on
`[1,2,9,0,3]`. -/
theorem electric_noise_zeroes_below_threshold_witness :
    ({ threshold_multiplier := (3 : ℚ) } : ElectricNoiseFilter).apply_mut [1, 2, 9, 0, 3] =
      some [0, 0, 9, 0, 3] := by
  have h := electric_noise_zeroes_below_threshold 3 [1, 2, 9, 0, 3] 1 (by decide)
  rw [h.1]
  norm_num

/-- Claim C10: the noise-floor filter raises exactly when the intensity
array has no strictly positive sample; otherwise it returns normally with
the array length unchanged. -/
theorem electric_noise_error_iff_no_positive (k : ℚ) (intensity : List ℚ) :
    (({ threshold_multiplier := k } : ElectricNoiseFilter).apply_mut intensity = none ↔
      ∀ x ∈ intensity, ¬ 0 < x) ∧
    ∀ out, ({ threshold_multiplier := k } : ElectricNoiseFilter).apply_mut intensity =
      some out → out.length = intensity.length := by
  constructor
  · constructor
    · intro h
      rw [ElectricNoiseFilter.apply_mut] at h
      cases hmin : np_min (intensity.filter (fun x => 0 < x)) with
      | none =>
        intro x hx hpos
        have hnil := (np_min_eq_none_iff _).mp hmin
        have : x ∈ intensity.filter (fun x => 0 < x) :=
          List.mem_filter.mpr ⟨hx, by simpa using hpos⟩
        rw [hnil] at this
        simp at this
      | some m => rw [hmin] at h; simp at h
    · intro h
      have hnil : intensity.filter (fun x => 0 < x) = [] := by
        rw [List.filter_eq_nil_iff]
        intro x hx
        simpa using h x hx
      rw [ElectricNoiseFilter.apply_mut, hnil]
      rfl
  · intro out h
    rw [ElectricNoiseFilter.apply_mut] at h
    cases hmin : np_min (intensity.filter (fun x => 0 < x)) with
    | none => rw [hmin] at h; simp at h
    | some m =>
      rw [hmin] at h
      simp only [Option.some.injEq] at h
      rw [← h]
      simp

/-- Witness for C10: no positive sample raises; a positive sample gives a
length-preserving normal return. -/
theorem electric_noise_error_iff_no_positive_witness :
    ({ threshold_multiplier := (2 : ℚ) } : ElectricNoiseFilter).apply_mut [0, 0] = none ∧
    ([0, 0] : List ℚ).length = ([0, 2] : List ℚ).length :=
  ⟨(electric_noise_error_iff_no_positive 2 [0, 0]).1.mpr (by decide),
   (electric_noise_error_iff_no_positive 2 [0, 2]).2 [0, 0]
     (by norm_num [ElectricNoiseFilter.apply_mut, np_min])⟩

/-! ### Zero-run collapse (claim C5) -/

theorem filter_by_mask_head (m : List Bool) (xs : List ℚ) (hm : m.head? = some true) :
    (filter_by_mask m xs).head? = xs.head? := by
  cases m with
  | nil => simp at hm
  | cons b ms =>
    have hb : b = true := by simpa using hm
    subst hb
    cases xs with
    | nil => simp [filter_by_mask]
    | cons x xs' => simp [filter_by_mask]

theorem filter_by_mask_last_mem (m : List Bool) (xs : List ℚ) (h : m.length = xs.length)
    (hm : m.getLast? = some true) (x : ℚ) (hx : xs.getLast? = some x) :
    x ∈ filter_by_mask m xs := by
  induction m generalizing xs with
  | nil =>
    have : xs = [] := by cases xs <;> simp_all
    subst this
    simp at hx
  | cons b ms ih =>
    cases xs with
    | nil => simp at h
    | cons y ys =>
      cases ms with
      | nil =>
        have hys : ys = [] := by cases ys <;> simp_all
        subst hys
        have hb : b = true := by simpa using hm
        have hxy : y = x := by simpa using hx
        subst hb; subst hxy
        simp [filter_by_mask]
      | cons b2 ms2 =>
        cases ys with
        | nil => simp at h
        | cons y2 ys2 =>
          have hm' : (b2 :: ms2).getLast? = some true := by
            rwa [List.getLast?_cons_cons] at hm
          have hx' : (y2 :: ys2).getLast? = some x := by
            rwa [List.getLast?_cons_cons] at hx
          have h' : (b2 :: ms2).length = (y2 :: ys2).length := by simpa using h
          have hmem := ih (y2 :: ys2) h' hm' hx'
          cases b <;> simp [filter_by_mask, hmem]

theorem filter_by_mask_mem_of_get (m : List Bool) (xs : List ℚ) (h : m.length = xs.length)
    (i : ℕ) (ht : m[i]? = some true) (x : ℚ) (hx : xs[i]? = some x) :
    x ∈ filter_by_mask m xs := by
  induction m generalizing xs i with
  | nil => simp at ht
  | cons b ms ih =>
    cases xs with
    | nil => simp at h
    | cons y ys =>
      cases i with
      | zero =>
        have hb : b = true := by simpa using ht
        have hxy : y = x := by simpa using hx
        subst hb; subst hxy
        simp [filter_by_mask]
      | succ i =>
        have h' : ms.length = ys.length := by simpa using h
        have ht' : ms[i]? = some true := by simpa using ht
        have hx' : ys[i]? = some x := by simpa using hx
        have hmem := ih ys h' i ht' hx'
        cases b <;> simp [filter_by_mask, hmem]

theorem filter_by_mask_length_eq (m : List Bool) (xs ys : List ℚ) (hx : m.length = xs.length)
    (hy : m.length = ys.length) :
    (filter_by_mask m xs).length = (filter_by_mask m ys).length := by
  induction m generalizing xs ys with
  | nil =>
    cases xs with
    | nil =>
      cases ys with
      | nil => rfl
      | cons y ys' => simp at hy
    | cons x xs' => simp at hx
  | cons b ms ih =>
    cases xs with
    | nil => simp at hx
    | cons x xs' =>
      cases ys with
      | nil => simp at hy
      | cons y ys' =>
        have hx' : ms.length = xs'.length := by simpa using hx
        have hy' : ms.length = ys'.length := by simpa using hy
        cases b <;> simp [filter_by_mask, ih xs' ys' hx' hy']

theorem np_convolve_full3_length (b : List ℚ) :
    (np_convolve_full3 b).length = b.length + 2 := by
  simp [np_convolve_full3]

theorem np_convolve_valid3_length_of_ge (b : List ℚ) (h : 3 ≤ b.length) :
    (np_convolve_valid3 b).length = b.length - 2 := by
  simp only [np_convolve_valid3, List.length_take, List.length_drop, np_convolve_full3_length]
  omega

theorem np_convolve_full3_getElem_some (b : List ℚ) (k : ℕ) (v1 v2 v3 : ℚ)
    (h1 : (b ++ [0, 0])[k]? = some v1)
    (h2 : ((0 : ℚ) :: (b ++ [0]))[k]? = some v2)
    (h3 : ((0 : ℚ) :: 0 :: b)[k]? = some v3) :
    (np_convolve_full3 b)[k]? = some ((v1 + v2 + v3) / 3) := by
  rw [np_convolve_full3, List.getElem?_zipWith, List.getElem?_zipWith, h1, h2, h3]

theorem np_convolve_valid3_get_pos (b : List ℚ) (hb : ∀ x ∈ b, 0 ≤ x) (j : ℕ)
    (h3 : 3 ≤ b.length) (hj : j + 2 < b.length) (v : ℚ)
    (hv : b[j + 1]? = some v) (hvpos : 0 < v) (w : ℚ)
    (hw : (np_convolve_valid3 b)[j]? = some w) : 0 < w := by
  have hA : ∃ a, (b ++ [(0 : ℚ), 0])[j + 2]? = some a ∧ 0 ≤ a := by
    rw [List.getElem?_append_left hj, List.getElem?_eq_getElem hj]
    exact ⟨_, rfl, hb _ (List.getElem_mem _)⟩
  obtain ⟨a1, ha1, ha1p⟩ := hA
  have hB : ((0 : ℚ) :: (b ++ [0]))[j + 2]? = some v := by
    rw [show j + 2 = (j + 1) + 1 from rfl, List.getElem?_cons_succ,
      List.getElem?_append_left (by omega : j + 1 < b.length)]
    exact hv
  have hC : ∃ c, ((0 : ℚ) :: 0 :: b)[j + 2]? = some c ∧ 0 ≤ c := by
    rw [show j + 2 = (j + 1) + 1 from rfl, List.getElem?_cons_succ,
      List.getElem?_cons_succ, List.getElem?_eq_getElem (by omega : j < b.length)]
    exact ⟨_, rfl, hb _ (List.getElem_mem _)⟩
  obtain ⟨c1, hc1, hc1p⟩ := hC
  have hfull := np_convolve_full3_getElem_some b (j + 2) a1 v c1 ha1 hB hc1
  have hvalid : (np_convolve_valid3 b)[j]? = (np_convolve_full3 b)[j + 2]? := by
    rw [np_convolve_valid3]
    rw [List.getElem?_take, if_pos (by omega : j < max b.length 3 - min b.length 3 + 1),
      List.getElem?_drop]
    congr 1
    omega
  rw [hvalid, hfull] at hw
  injection hw with hw1
  rw [← hw1]
  have hs : 0 < a1 + v + c1 := by linarith
  positivity

/-- The structural fact behind zero-run collapse on inputs of length at
least 3: it succeeds, filtering both arrays by one mask of the input
length whose first and last entries are `true` and which is `true` at
every strictly positive intensity sample. -/
theorem collapse_mask_spec (mz intensity : List ℚ) (hlen : mz.length = intensity.length)
    (h3 : 3 ≤ intensity.length) :
    ∃ mask : List Bool,
      collapse_zero_intensity_mut mz intensity =
        some (filter_by_mask mask mz, filter_by_mask mask intensity) ∧
      mask.length = intensity.length ∧
      mask.head? = some true ∧
      mask.getLast? = some true ∧
      ∀ (i : ℕ) (v : ℚ), intensity[i]? = some v → 0 < v → mask[i]? = some true := by
  classical
  have hb3 : 3 ≤ (intensity.map (fun v => if 0 < v then (1 : ℚ) else 0)).length := by
    simpa using h3
  have hcv := np_convolve_valid3_length_of_ge _ hb3
  rw [List.length_map] at hcv
  have hmlen :
      (((1 : ℚ) :: (np_convolve_valid3 (intensity.map (fun v => if 0 < v then (1 : ℚ) else 0))
        ++ [1])).map (fun x => decide (0 < x))).length = intensity.length := by
    simp only [List.length_map, List.length_cons, List.length_append, hcv,
      List.length_nil]
    omega
  refine ⟨((1 : ℚ) :: (np_convolve_valid3 (intensity.map (fun v => if 0 < v then (1 : ℚ) else 0))
    ++ [1])).map (fun x => decide (0 < x)), ?_, hmlen, ?_, ?_, ?_⟩
  · simp only [collapse_zero_intensity_mut]
    rw [if_pos ⟨by rw [hmlen, hlen], hmlen⟩]
  · simp only [List.map_cons, List.head?_cons, Option.some.injEq]
    norm_num
  · simp only [List.map_cons, List.map_append, List.map_nil]
    rw [← List.cons_append, List.getLast?_concat]
    norm_num
  · intro i v hiv hv
    have hi : i < intensity.length := by
      by_contra hge
      push_neg at hge
      rw [List.getElem?_eq_none hge] at hiv
      exact Option.noConfusion hiv
    obtain ⟨hi', hvi⟩ := List.getElem?_eq_some.mp hiv
    have hb0 : ∀ x ∈ intensity.map (fun v => if 0 < v then (1 : ℚ) else 0), 0 ≤ x := by
      intro x hx
      rcases List.mem_map.mp hx with ⟨w, _, rfl⟩
      split <;> norm_num
    rw [List.getElem?_map]
    cases i with
    | zero =>
      simp
    | succ j =>
      rw [List.getElem?_cons_succ]
      rcases lt_or_eq_of_le (by omega : j ≤
          (np_convolve_valid3 (intensity.map (fun v => if 0 < v then (1 : ℚ) else 0))).length)
        with hjcv | hjcv
      · have hjb : j + 2 < (intensity.map (fun v => if 0 < v then (1 : ℚ) else 0)).length := by
          rw [List.length_map]
          omega
        have hbj1 : (intensity.map (fun v => if 0 < v then (1 : ℚ) else 0))[j + 1]? =
            some 1 := by
          rw [List.getElem?_map, hiv]
          simp [hv]
        have hw : (np_convolve_valid3
            (intensity.map (fun v => if 0 < v then (1 : ℚ) else 0)))[j]? =
            some ((np_convolve_valid3
              (intensity.map (fun v => if 0 < v then (1 : ℚ) else 0))).get ⟨j, hjcv⟩) :=
          List.getElem?_eq_getElem hjcv
        have hpos := np_convolve_valid3_get_pos
          (intensity.map (fun v => if 0 < v then (1 : ℚ) else 0)) hb0 j
          (by rw [List.length_map]; omega) hjb 1 hbj1 (by norm_num) _ hw
        rw [List.getElem?_append_left hjcv, hw]
        simpa using hpos
      · rw [hjcv, List.getElem?_append_right (le_refl _)]
        simp

/-- Claim C5 counterexample: on equal-length inputs of length 1 the
sentinel-padded convolution mask has length 5, boolean indexing raises,
and zero-run collapse does not return normally. -/
theorem collapse_len_one_cex : collapse_zero_intensity_mut [1] [5] = none := by
  simp [collapse_zero_intensity_mut, np_convolve_valid3, np_convolve_full3]

/-- Claim C5 amended: for every pair of equal-length m/z and intensity
arrays of length at least 3 (not 1: for lengths 1 and 2 the mask built
from the `'valid'` convolution has the wrong length and the operation
raises), zero-run collapse returns normally, retains every sample whose
intensity is strictly positive, retains the sample at index 0 and retains
the sample at the last index. -/
theorem collapse_zero_run_amended (mz intensity : List ℚ)
    (hlen : mz.length = intensity.length) (h3 : 3 ≤ intensity.length) :
    ∃ mask : List Bool,
      collapse_zero_intensity_mut mz intensity =
        some (filter_by_mask mask mz, filter_by_mask mask intensity) ∧
      mask.length = intensity.length ∧
      (filter_by_mask mask mz).head? = mz.head? ∧
      (∀ x, mz.getLast? = some x → x ∈ filter_by_mask mask mz) ∧
      (∀ (i : ℕ) (v : ℚ), intensity[i]? = some v → 0 < v → v ∈ filter_by_mask mask intensity) := by
  obtain ⟨mask, hcoll, hmlen, hhead, hlast, hkeep⟩ := collapse_mask_spec mz intensity hlen h3
  refine ⟨mask, hcoll, hmlen, filter_by_mask_head mask mz hhead, ?_, ?_⟩
  · intro x hx
    exact filter_by_mask_last_mem mask mz (by omega) hlast x hx
  · intro i v hiv hv
    exact filter_by_mask_mem_of_get mask intensity hmlen i (hkeep i v hiv hv) v hiv

/-- Witness for C5 (amended) at a concrete length-3 input. -/
theorem collapse_zero_run_amended_witness :
    ∃ mask : List Bool,
      collapse_zero_intensity_mut [10, 11, 12] [0, 5, 0] =
        some (filter_by_mask mask [10, 11, 12], filter_by_mask mask [0, 5, 0]) ∧
      mask.length = ([0, 5, 0] : List ℚ).length ∧
      (filter_by_mask mask [10, 11, 12]).head? = ([10, 11, 12] : List ℚ).head? ∧
      (∀ x, ([10, 11, 12] : List ℚ).getLast? = some x → x ∈ filter_by_mask mask [10, 11, 12]) ∧
      (∀ (i : ℕ) (v : ℚ), ([0, 5, 0] : List ℚ)[i]? = some v → 0 < v →
        v ∈ filter_by_mask mask [0, 5, 0]) :=
  collapse_zero_run_amended [10, 11, 12] [0, 5, 0] (by decide) (by decide)

/-! ### Resample-to-grid (claim C6) -/

theorem qfloor_eq_floor (q : ℚ) : qfloor q = ⌊q⌋ :=
  Rat.floor_def.symm

theorem qceil_eq_ceil (q : ℚ) : qceil q = ⌈q⌉ := by
  rw [qceil, qfloor_eq_floor, ← Int.ceil_neg, neg_neg]

/-- Evaluation of the resampler with `central_mz = 800`, `step = 1` on a
spectrum spanning m/z `[798.4, 802.1]`: the low edge is
`800 - floor(1.6/1)*1 = 799` (floor, not ceil), the high edge
`800 + ceil(2.1/1)*1 = 803`, and the grid `arange 799 803 1` is
`[799, 800, 801, 802]`. -/
theorem resampler_800_eval (mz intensity : List ℚ) (hlen : mz.length = intensity.length)
    (hmin : np_min mz = some (7984 / 10)) (hmax : np_max mz = some (8021 / 10)) :
    ResamplerFilter.apply_mut { sampling_rate := 1, central_mz := 800 } mz intensity =
      collapse_zero_intensity_mut [799, 800, 801, 802]
        (([799, 800, 801, 802] : List ℚ).map (fun x => np_interp x (mz.zip intensity))) := by
  have e1 : qfloor ((800 - 7984 / 10) / 1) = 1 := by
    rw [qfloor_eq_floor, show ((800 : ℚ) - 7984 / 10) / 1 = 8 / 5 by norm_num,
      Int.floor_eq_iff]
    constructor <;> norm_num
  have e2 : qceil ((8021 / 10 - 800) / 1) = 3 := by
    rw [qceil_eq_ceil, show ((8021 : ℚ) / 10 - 800) / 1 = 21 / 10 by norm_num,
      Int.ceil_eq_iff]
    constructor <;> norm_num
  have harg1 : (800 : ℚ) - (qfloor ((800 - 7984 / 10) / 1) : ℚ) * 1 = 799 := by
    rw [e1]; norm_num
  have harg2 : (800 : ℚ) + (qceil ((8021 / 10 - 800) / 1) : ℚ) * 1 = 803 := by
    rw [e2]; norm_num
  have e3 : qceil ((803 - 799) / 1) = 4 := by
    rw [qceil_eq_ceil, show ((803 : ℚ) - 799) / 1 = ((4 : ℤ) : ℚ) by norm_num,
      Int.ceil_intCast]
  have hgrid : np_arange 799 803 1 = [799, 800, 801, 802] := by
    rw [np_arange, if_pos (by norm_num : (0 : ℚ) < 1), e3]
    rw [show ((4 : ℤ).toNat) = 4 from rfl, show List.range 4 = [0, 1, 2, 3] from rfl]
    simp only [List.map_cons, List.map_nil]
    norm_num
  simp only [ResamplerFilter.apply_mut, hmin, hmax]
  rw [harg1, harg2, hgrid, if_pos hlen]

/-- Claim C6 counterexample: with `central_mz = 800`, `step = 1` on m/z
`[798.4, 802.1]` (intensities `[1, 1]`), the first produced grid point is
799 — the code anchors the low edge with `math.floor` — and not 798 as
claimed. -/
theorem resampler_first_point_cex :
    (ResamplerFilter.apply_mut { sampling_rate := 1, central_mz := 800 }
        [7984 / 10, 8021 / 10] [1, 1]).map (fun out => out.1.head?) = some (some 799) ∧
    (some (some (799 : ℚ)) : Option (Option ℚ)) ≠ some (some 798) := by
  have hmin : np_min [7984 / 10, 8021 / 10] = some (7984 / 10) := by
    simp only [np_min, List.foldl_cons, List.foldl_nil]
    rw [min_eq_left (by norm_num : (7984 / 10 : ℚ) ≤ 8021 / 10)]
  have hmax : np_max [7984 / 10, 8021 / 10] = some (8021 / 10) := by
    simp only [np_max, List.foldl_cons, List.foldl_nil]
    rw [max_eq_right (by norm_num : (7984 / 10 : ℚ) ≤ 8021 / 10)]
  constructor
  · rw [resampler_800_eval [7984 / 10, 8021 / 10] [1, 1] rfl hmin hmax]
    obtain ⟨mask, hcoll, hmlen, hhead, _, _⟩ :=
      collapse_mask_spec [799, 800, 801, 802]
        (([799, 800, 801, 802] : List ℚ).map
          (fun x => np_interp x ([7984 / 10, 8021 / 10].zip [1, 1])))
        (by simp) (by simp)
    rw [hcoll]
    simp only [Option.map_some']
    rw [filter_by_mask_head _ _ hhead]
    rfl
  · intro h
    simp only [Option.some.injEq] at h
    norm_num at h

/-- Claim C6 amended: with `central_mz = 800` and `step = 1` on a spectrum
whose m/z values span `[798.4, 802.1]`, the produced m/z grid starts at
799 (the low edge is `800 − floor(1.6/1)×1`, via floor, not
`800 − ceil(1.6/1)×1 = 798`) and includes grid points through 802. -/
theorem resampler_grid_amended (mz intensity : List ℚ)
    (hlen : mz.length = intensity.length)
    (hmin : np_min mz = some (7984 / 10)) (hmax : np_max mz = some (8021 / 10)) :
    ∃ out : List ℚ × List ℚ,
      ResamplerFilter.apply_mut { sampling_rate := 1, central_mz := 800 } mz intensity =
        some out ∧
      out.1.head? = some 799 ∧ (802 : ℚ) ∈ out.1 := by
  rw [resampler_800_eval mz intensity hlen hmin hmax]
  obtain ⟨mask, hcoll, hmlen, hhead, hlast, _⟩ :=
    collapse_mask_spec [799, 800, 801, 802]
      (([799, 800, 801, 802] : List ℚ).map (fun x => np_interp x (mz.zip intensity)))
      (by simp) (by simp)
  refine ⟨_, hcoll, ?_, ?_⟩
  · rw [filter_by_mask_head _ _ hhead]
    rfl
  · refine filter_by_mask_last_mem mask [799, 800, 801, 802] ?_ hlast 802 rfl

    rw [hmlen]
    simp

/-- Witness for C6 (amended) at the concrete two-point spectrum spanning
`[798.4, 802.1]`. -/
theorem resampler_grid_amended_witness :
    ∃ out : List ℚ × List ℚ,
      ResamplerFilter.apply_mut { sampling_rate := 1, central_mz := 800 }
        [7984 / 10, 8021 / 10] [1, 1] = some out ∧
      out.1.head? = some 799 ∧ (802 : ℚ) ∈ out.1 :=
  resampler_grid_amended [7984 / 10, 8021 / 10] [1, 1] rfl
    (by simp only [np_min, List.foldl_cons, List.foldl_nil]
        rw [min_eq_left (by norm_num : (7984 / 10 : ℚ) ≤ 8021 / 10)])
    (by simp only [np_max, List.foldl_cons, List.foldl_nil]
        rw [max_eq_right (by norm_num : (7984 / 10 : ℚ) ≤ 8021 / 10)])

/-! ### Filters preserve equal array lengths (claim C7) -/

theorem collapse_some_length (mz intensity a b : List ℚ)
    (h : collapse_zero_intensity_mut mz intensity = some (a, b)) :
    a.length = b.length := by
  simp only [collapse_zero_intensity_mut] at h
  split_ifs at h with hc
  injection h with h2
  injection h2 with ha hb
  rw [← ha, ← hb]
  exact filter_by_mask_length_eq _ _ _ hc.1 hc.2

theorem electric_apply_mut_length (f : ElectricNoiseFilter) (intensity out : List ℚ)
    (h : f.apply_mut intensity = some out) : out.length = intensity.length := by
  rw [ElectricNoiseFilter.apply_mut] at h
  cases hm : np_min (intensity.filter fun x => 0 < x) with
  | none => rw [hm] at h; exact Option.noConfusion h
  | some m =>
    rw [hm] at h
    injection h with h2
    rw [← h2]
    simp

/-- Claim C7: every filter of the pipeline that starts from equal-length
decoded m/z and intensity arrays and returns normally (its own
preconditions satisfied; scipy's smoother is shape-preserving per its
contract) leaves the two arrays with equal lengths again. -/
theorem filters_preserve_equal_lengths (s : FilterStep) (mz intensity mz' intensity' : List ℚ)
    (hsg : ∀ f sg, s = FilterStep.sgolay f sg → ∀ xs : List ℚ, (sg xs).length = xs.length)
    (hlen : mz.length = intensity.length)
    (happ : s.apply mz intensity = some (mz', intensity')) :
    mz'.length = intensity'.length := by
  cases s with
  | electric f =>
    simp only [FilterStep.apply] at happ
    cases hm : f.apply_mut intensity with
    | none => rw [hm] at happ; exact Option.noConfusion happ
    | some out =>
      rw [hm] at happ
      simp only [Option.map_some', Option.some.injEq, Prod.mk.injEq] at happ
      obtain ⟨h1, h2⟩ := happ
      rw [← h1, ← h2, electric_apply_mut_length f intensity out hm]
      exact hlen
  | baseline f =>
    simp only [FilterStep.apply, BaselineFilter.apply_mut] at happ
    exact collapse_some_length _ _ _ _ happ
  | mzWindow f =>
    simp only [FilterStep.apply, MzWindowFilter.apply_mut] at happ
    split_ifs at happ with hc
    injection happ with h2
    injection h2 with ha hb
    rw [← ha, ← hb]
    exact filter_by_mask_length_eq _ _ _ (by simp) (by simp [hlen])
  | resample f =>
    simp only [FilterStep.apply, ResamplerFilter.apply_mut] at happ
    cases hm1 : np_min mz with
    | none => rw [hm1] at happ; exact Option.noConfusion happ
    | some mn =>
      cases hm2 : np_max mz with
      | none => rw [hm1, hm2] at happ; exact Option.noConfusion happ
      | some mx =>
        rw [hm1, hm2] at happ
        split_ifs at happ
        exact collapse_some_length _ _ _ _ happ
  | sgolay f sg =>
    have hsgl := hsg f sg rfl
    simp only [FilterStep.apply, SGolayFilter.apply_mut] at happ
    split_ifs at happ with h1 h2
    · injection happ with h3
      injection h3 with ha hb
      rw [← ha, ← hb]
      exact hlen
    · exact collapse_some_length _ _ _ _ happ
  | typeChange cm ci =>
    simp only [FilterStep.apply, TypeFilter.apply_mut, Option.some.injEq,
      Prod.mk.injEq] at happ
    obtain ⟨h1, h2⟩ := happ
    rw [← h1, ← h2]
    simp [hlen]
  | compressionChange =>
    simp only [FilterStep.apply, CompressionFilter.apply_mut, Option.some.injEq,
      Prod.mk.injEq] at happ
    obtain ⟨h1, h2⟩ := happ
    rw [← h1, ← h2]
    exact hlen
  | toMinutes =>
    simp only [FilterStep.apply, ConvertRtToMinutes.apply_mut, Option.some.injEq,
      Prod.mk.injEq] at happ
    obtain ⟨h1, h2⟩ := happ
    rw [← h1, ← h2]
    exact hlen
  | asF32 c =>
    simp only [FilterStep.apply, TypeFilter.apply_mut, Option.some.injEq,
      Prod.mk.injEq] at happ
    obtain ⟨h1, h2⟩ := happ
    rw [← h1, ← h2]
    simp [hlen]

/-- Witness for C7: the noise-floor step on equal-length arrays. -/
theorem filters_preserve_equal_lengths_witness :
    ([10, 20] : List ℚ).length = ([0, 0] : List ℚ).length :=
  filters_preserve_equal_lengths (.electric { threshold_multiplier := 3 }) [10, 20] [1, 2]
    [10, 20] [0, 0] (fun _ _ h => nomatch h) rfl
    (by norm_num [FilterStep.apply, ElectricNoiseFilter.apply_mut, np_min])

/-! ### Offsets point at the serialized elements (claim C1) -/

theorem prefix_window_stable (out t : List Char) (o n : ℕ) (hb : o + n ≤ out.length) :
    ((out ++ t).drop o).take n = (out.drop o).take n := by
  rw [List.drop_append_eq_append_drop]
  have h0 : o - out.length = 0 := by omega
  rw [h0, List.drop_zero]
  rw [List.take_append_of_le_length]
  rw [List.length_drop]
  omega

theorem process_spectrum_inv (filters : List (SpectrumElem → Option SpectrumElem))
    (ts : SpectrumElem → List Char) (st : EngState) (sp : SpectrumElem) (st' : EngState)
    (h : process_spectrum filters ts st sp = some st')
    (hoff : st.spectrum_offsets = st.log.map (fun e => (e.id, e.offset)))
    (hlog : ∀ e ∈ st.log, e.offset + e.bytes.length ≤ st.out.length ∧
      (st.out.drop e.offset).take e.bytes.length = e.bytes) :
    st'.spectrum_offsets = st'.log.map (fun e => (e.id, e.offset)) ∧
    ∀ e ∈ st'.log, e.offset + e.bytes.length ≤ st'.out.length ∧
      (st'.out.drop e.offset).take e.bytes.length = e.bytes := by
  cases hpf : post_filter_spectrum filters sp with
  | none => simp only [process_spectrum, hpf] at h; exact Option.noConfusion h
  | some sp1 =>
    cases hmn : np_min sp1.mz with
    | none => simp only [process_spectrum, hpf, hmn] at h; exact Option.noConfusion h
    | some mn =>
      cases hmx : np_max sp1.mz with
      | none =>
        simp only [process_spectrum, hpf, hmn, hmx] at h
        exact Option.noConfusion h
      | some mx =>
        simp only [process_spectrum, hpf, hmn, hmx] at h
        injection h with h1
        subst h1
        constructor
        · simp only [List.map_append, List.map_cons, List.map_nil]
          rw [hoff]
        · intro e he
          rcases List.mem_append.mp he with he | he
          · have h2 := hlog e he
            constructor
            · simp only [List.length_append]
              omega
            · rw [List.append_assoc, prefix_window_stable _ _ _ _ h2.1]
              exact h2.2
          · have he2 : e =
                ⟨rewrite_spectrum_id sp, st.out.length, ts (finalize_spectrum sp1 mn mx)⟩ := by
              simpa using he
            subst he2
            constructor
            · simp only [List.length_append, List.length_cons, List.length_nil]
              omega
            · rw [List.append_assoc, List.drop_left, List.take_left]

theorem process_body_inv (filters : List (SpectrumElem → Option SpectrumElem))
    (ts : SpectrumElem → List Char) (body : List BodyItem) :
    ∀ st st' : EngState, process_body filters ts body st = some st' →
    st.spectrum_offsets = st.log.map (fun e => (e.id, e.offset)) →
    (∀ e ∈ st.log, e.offset + e.bytes.length ≤ st.out.length ∧
      (st.out.drop e.offset).take e.bytes.length = e.bytes) →
    st'.spectrum_offsets = st'.log.map (fun e => (e.id, e.offset)) ∧
    ∀ e ∈ st'.log, e.offset + e.bytes.length ≤ st'.out.length ∧
      (st'.out.drop e.offset).take e.bytes.length = e.bytes := by
  induction body with
  | nil =>
    intro st st' h hoff hlog
    simp only [process_body] at h
    injection h with h1
    subst h1
    exact ⟨hoff, hlog⟩
  | cons item rest ih =>
    intro st st' h hoff hlog
    cases item with
    | plain line =>
      simp only [process_body] at h
      apply ih _ _ h hoff
      intro e he
      have h2 := hlog e he
      constructor
      · simp only [List.length_append]
        omega
      · rw [prefix_window_stable _ _ _ _ h2.1]
        exact h2.2
    | spectrum sp =>
      simp only [process_body] at h
      cases hps : process_spectrum filters ts st sp with
      | none => rw [hps] at h; exact Option.noConfusion h
      | some st1 =>
        rw [hps] at h
        have hinv := process_spectrum_inv filters ts st sp st1 hps hoff hlog
        exact ih st1 st' h hinv.1 hinv.2

/-- Claim C1: in every completed run of the rewrite engine, the offset
table is exactly the `(id, offset)` view of the emission log, and for each
logged spectrum the bytes of the final output file starting at its
recorded offset are precisely that spectrum's serialized element — the
offset addresses the first byte of the element as written. -/
theorem spectrum_offsets_point_to_serialized
    (filters : List (SpectrumElem → Option SpectrumElem))
    (tostring : SpectrumElem → List Char) (ml : List Char) (body : List BodyItem)
    (el : List Char) (st : EngState)
    (h : process_mzml filters tostring ml body el = some st) :
    st.spectrum_offsets = st.log.map (fun e => (e.id, e.offset)) ∧
    ∀ e ∈ st.log, (st.out.drop e.offset).take e.bytes.length = e.bytes := by
  cases hb : process_body filters tostring body
      { out := indexedmzml_open ++ ml, spectrum_offsets := [], log := [] } with
  | none => simp only [process_mzml, hb] at h; exact Option.noConfusion h
  | some st1 =>
    simp only [process_mzml, hb, Option.map_some'] at h
    injection h with h1
    subst h1
    have hinv := process_body_inv filters tostring body _ st1 hb rfl
      (by intro e he; exact absurd he (List.not_mem_nil e))
    refine ⟨hinv.1, ?_⟩
    intro e he
    have h2 := hinv.2 e he
    rw [List.append_assoc, prefix_window_stable _ _ _ _ (by omega)]
    exact h2.2

/-- Witness for C1: a concrete two-spectrum run of the engine. -/
theorem spectrum_offsets_point_to_serialized_witness :
    c1_state.spectrum_offsets = c1_state.log.map (fun e => (e.id, e.offset)) ∧
    ∀ e ∈ c1_state.log, (c1_state.out.drop e.offset).take e.bytes.length = e.bytes :=
  spectrum_offsets_point_to_serialized [] id_serializer "<mzML>\n".data c1_body
    "</mzML>\n".data c1_state (by rfl)

/-! ### Observed-m/z rewriting and the empty post-filter case (claim C9) -/

/-- Claim C9 counterexample: a run whose only spectrum (ms level 1) is
emptied by an m/z window filter makes `mz_data.min()` raise, so the whole
run fails — the engine neither writes the spectrum nor skips the
annotations as the claim requires. -/
theorem engine_empty_mz_fails_cex :
    process_mzml [c9_window_filter] id_serializer "<mzML>\n".data
      [BodyItem.spectrum c9_spectrum] "</mzML>\n".data = none := by
  rfl

/-- Claim C9 amended: for every spectrum the engine processes, when the
post-filter m/z array is non-empty the engine prepends the
highest/lowest-observed-m/z params carrying the array's current maximum
and minimum and writes the serialized element; when the post-filter m/z
array is empty, the min/max computation fails and the run aborts — the
spectrum is not written without the annotations. -/
theorem minmax_params_amended (filters : List (SpectrumElem → Option SpectrumElem))
    (ts : SpectrumElem → List Char) (st : EngState) (sp sp1 : SpectrumElem)
    (hpf : post_filter_spectrum filters sp = some sp1) :
    (sp1.mz = [] → process_spectrum filters ts st sp = none) ∧
    (sp1.mz ≠ [] → ∃ mn mx : ℚ,
      np_min sp1.mz = some mn ∧ np_max sp1.mz = some mx ∧
      mn ∈ sp1.mz ∧ mx ∈ sp1.mz ∧ (∀ x ∈ sp1.mz, mn ≤ x ∧ x ≤ mx) ∧
      (finalize_spectrum sp1 mn mx).params.take 2 =
        [mk_cvparam "MS:1000527" (toString mx) "highest observed m/z",
         mk_cvparam "MS:1000528" (toString mn) "lowest observed m/z"] ∧
      process_spectrum filters ts st sp = some
        { out := st.out ++ ts (finalize_spectrum sp1 mn mx) ++ ['\n']
          spectrum_offsets :=
            st.spectrum_offsets ++ [(rewrite_spectrum_id sp, st.out.length)]
          log := st.log ++
            [⟨rewrite_spectrum_id sp, st.out.length, ts (finalize_spectrum sp1 mn mx)⟩] }) := by
  constructor
  · intro hnil
    simp only [process_spectrum, hpf, hnil, np_min]
  · intro hne
    have hmn : ∃ mn, np_min sp1.mz = some mn := by
      cases hmz : sp1.mz with
      | nil => exact absurd hmz hne
      | cons a l => exact ⟨_, rfl⟩
    have hmx : ∃ mx, np_max sp1.mz = some mx := by
      cases hmz : sp1.mz with
      | nil => exact absurd hmz hne
      | cons a l => exact ⟨_, rfl⟩
    obtain ⟨mn, hmn⟩ := hmn
    obtain ⟨mx, hmx⟩ := hmx
    refine ⟨mn, mx, hmn, hmx, (np_min_spec _ _ hmn).1, (np_max_spec _ _ hmx).1,
      fun x hx => ⟨(np_min_spec _ _ hmn).2 x hx, (np_max_spec _ _ hmx).2 x hx⟩, rfl, ?_⟩
    simp only [process_spectrum, hpf, hmn, hmx]

/-- Witness for C9 (amended): the filter-free run on a one-point
spectrum. -/
theorem minmax_params_amended_witness :
    (c9_sp1.mz = [] →
      process_spectrum [] id_serializer { out := [], spectrum_offsets := [], log := [] }
        c9_spectrum = none) ∧
    (c9_sp1.mz ≠ [] → ∃ mn mx : ℚ,
      np_min c9_sp1.mz = some mn ∧ np_max c9_sp1.mz = some mx ∧
      mn ∈ c9_sp1.mz ∧ mx ∈ c9_sp1.mz ∧ (∀ x ∈ c9_sp1.mz, mn ≤ x ∧ x ≤ mx) ∧
      (finalize_spectrum c9_sp1 mn mx).params.take 2 =
        [mk_cvparam "MS:1000527" (toString mx) "highest observed m/z",
         mk_cvparam "MS:1000528" (toString mn) "lowest observed m/z"] ∧
      process_spectrum [] id_serializer { out := [], spectrum_offsets := [], log := [] }
        c9_spectrum = some
        { out := ([] : List Char) ++ id_serializer (finalize_spectrum c9_sp1 mn mx) ++ ['\n']
          spectrum_offsets :=
            ([] : List (String × ℕ)) ++ [(rewrite_spectrum_id c9_spectrum, ([] : List Char).length)]
          log := ([] : List Emit) ++
            [⟨rewrite_spectrum_id c9_spectrum, ([] : List Char).length,
              id_serializer (finalize_spectrum c9_sp1 mn mx)⟩] }) :=
  minmax_params_amended [] id_serializer { out := [], spectrum_offsets := [], log := [] }
    c9_spectrum c9_sp1 (by rfl)

/-! ### Rejected spectra are absent, retained ones present (claim C3) -/

theorem process_spectrum_pred_inv (preds : List SpectrumPredicate)
    (filters : List (SpectrumElem → Option SpectrumElem)) (ts : SpectrumElem → List Char)
    (st : PredEngState) (sp : SpectrumElem) (st' : PredEngState) (base : List Char)
    (h : process_spectrum_pred preds filters ts st sp = some st')
    (hA : st.out = base ++ st.writes.flatten)
    (hB : st.writes.length = st.pos)
    (hC : st.spectrum_offsets = st.log.map (fun e => (e.id, e.offset)))
    (hD : ∀ e ∈ st.log, e.src_idx < st.pos)
    (hE : ∀ p ∈ st.decisions, p.1 < st.pos ∧
      (p.2 = false → (∀ e ∈ st.log, e.src_idx ≠ p.1) ∧ st.writes[p.1]? = some []) ∧
      (p.2 = true → ∃ e ∈ st.log, e.src_idx = p.1)) :
    st'.out = base ++ st'.writes.flatten ∧
    st'.writes.length = st'.pos ∧
    st'.spectrum_offsets = st'.log.map (fun e => (e.id, e.offset)) ∧
    (∀ e ∈ st'.log, e.src_idx < st'.pos) ∧
    ∀ p ∈ st'.decisions, p.1 < st'.pos ∧
      (p.2 = false → (∀ e ∈ st'.log, e.src_idx ≠ p.1) ∧ st'.writes[p.1]? = some []) ∧
      (p.2 = true → ∃ e ∈ st'.log, e.src_idx = p.1) := by
  simp only [process_spectrum_pred] at h
  split_ifs at h with hp
  · cases haf : apply_filters filters { sp with id := rewrite_spectrum_id sp } with
    | none => rw [haf] at h; exact Option.noConfusion h
    | some sp1 =>
      rw [haf] at h
      injection h with h1
      subst h1
      dsimp only
      refine ⟨?_, ?_, ?_, ?_, ?_⟩
      · simp only [List.flatten_append, List.flatten_cons, List.flatten_nil, List.append_nil]
        rw [hA, List.append_assoc]
      · simp [hB]
      · simp only [List.map_append, List.map_cons, List.map_nil]
        rw [hC]
      · intro e he
        rcases List.mem_append.mp he with he | he
        · exact Nat.lt_succ_of_lt (hD e he)
        · have he2 : e.src_idx = st.pos := by
            have he3 := List.mem_singleton.mp he
            rw [he3]
          omega
      · intro p hp2
        rcases List.mem_append.mp hp2 with hp2 | hp2
        · have h3 := hE p hp2
          refine ⟨Nat.lt_succ_of_lt h3.1, ?_, ?_⟩
          · intro hfalse
            have h4 := h3.2.1 hfalse
            constructor
            · intro e he
              rcases List.mem_append.mp he with he | he
              · exact h4.1 e he
              · have he2 : e.src_idx = st.pos := by
                  have he3 := List.mem_singleton.mp he
                  rw [he3]
                omega
            · rw [List.getElem?_append_left (by omega : p.1 < st.writes.length)]
              exact h4.2
          · intro htrue
            obtain ⟨e, he, he2⟩ := h3.2.2 htrue
            exact ⟨e, List.mem_append.mpr (Or.inl he), he2⟩
        · have hp3 : p = (st.pos, true) := by simpa using hp2
          subst hp3
          refine ⟨Nat.lt_succ_self _, ?_, ?_⟩
          · intro hfalse
            exact absurd hfalse (by simp)
          · intro _
            exact ⟨_, List.mem_append.mpr (Or.inr (List.mem_singleton.mpr rfl)), rfl⟩
  · injection h with h1
    subst h1
    dsimp only
    refine ⟨?_, ?_, hC, ?_, ?_⟩
    · simp only [List.flatten_append, List.flatten_cons, List.flatten_nil, List.append_nil]
      exact hA
    · simp [hB]
    · intro e he
      exact Nat.lt_succ_of_lt (hD e he)
    · intro p hp2
      rcases List.mem_append.mp hp2 with hp2 | hp2
      · have h3 := hE p hp2
        refine ⟨Nat.lt_succ_of_lt h3.1, ?_, h3.2.2⟩
        intro hfalse
        have h4 := h3.2.1 hfalse
        refine ⟨h4.1, ?_⟩
        rw [List.getElem?_append_left (by omega : p.1 < st.writes.length)]
        exact h4.2
      · have hp3 : p = (st.pos, false) := by simpa using hp2
        subst hp3
        refine ⟨Nat.lt_succ_self _, ?_, ?_⟩
        · intro _
          constructor
          · intro e he
            have := hD e he
            omega
          · rw [← hB, List.getElem?_append_right (le_refl _)]
            simp
        · intro htrue
          exact absurd htrue (by simp)

theorem process_body_pred_inv (preds : List SpectrumPredicate)
    (filters : List (SpectrumElem → Option SpectrumElem)) (ts : SpectrumElem → List Char)
    (body : List BodyItem) (base : List Char) :
    ∀ st st' : PredEngState, process_body_pred preds filters ts body st = some st' →
    st.out = base ++ st.writes.flatten →
    st.writes.length = st.pos →
    st.spectrum_offsets = st.log.map (fun e => (e.id, e.offset)) →
    (∀ e ∈ st.log, e.src_idx < st.pos) →
    (∀ p ∈ st.decisions, p.1 < st.pos ∧
      (p.2 = false → (∀ e ∈ st.log, e.src_idx ≠ p.1) ∧ st.writes[p.1]? = some []) ∧
      (p.2 = true → ∃ e ∈ st.log, e.src_idx = p.1)) →
    st'.out = base ++ st'.writes.flatten ∧
    st'.writes.length = st'.pos ∧
    st'.spectrum_offsets = st'.log.map (fun e => (e.id, e.offset)) ∧
    (∀ e ∈ st'.log, e.src_idx < st'.pos) ∧
    ∀ p ∈ st'.decisions, p.1 < st'.pos ∧
      (p.2 = false → (∀ e ∈ st'.log, e.src_idx ≠ p.1) ∧ st'.writes[p.1]? = some []) ∧
      (p.2 = true → ∃ e ∈ st'.log, e.src_idx = p.1) := by
  induction body with
  | nil =>
    intro st st' h hA hB hC hD hE
    simp only [process_body_pred] at h
    injection h with h1
    subst h1
    exact ⟨hA, hB, hC, hD, hE⟩
  | cons item rest ih =>
    intro st st' h hA hB hC hD hE
    cases item with
    | plain line =>
      simp only [process_body_pred] at h
      apply ih _ _ h
      · simp only [List.flatten_append, List.flatten_cons, List.flatten_nil, List.append_nil]
        rw [hA, List.append_assoc]
      · simp [hB]
      · exact hC
      · intro e he
        exact Nat.lt_succ_of_lt (hD e he)
      · intro p hp2
        have h3 := hE p hp2
        refine ⟨Nat.lt_succ_of_lt h3.1, ?_, h3.2.2⟩
        intro hfalse
        have h4 := h3.2.1 hfalse
        refine ⟨h4.1, ?_⟩
        rw [List.getElem?_append_left (by omega : p.1 < st.writes.length)]
        exact h4.2
    | spectrum sp =>
      simp only [process_body_pred] at h
      cases hps : process_spectrum_pred preds filters ts st sp with
      | none => rw [hps] at h; exact Option.noConfusion h
      | some st1 =>
        rw [hps] at h
        have hinv := process_spectrum_pred_inv preds filters ts st sp st1 base hps
          hA hB hC hD hE
        exact ih st1 st' h hinv.1 hinv.2.1 hinv.2.2.1 hinv.2.2.2.1 hinv.2.2.2.2

/-- Claim C3 (the predicate-aware engine is modelled from the spec): in
every completed run, the offset table lists exactly the logged (retained)
spectra; a spectrum rejected at body position `j` has no entry in the log
(hence none in the offset table or trailing index, which are built from
it) and contributed no bytes to the output; every retained spectrum has a
log entry; and the whole output is the wrapper, the per-item writes, and
the trailer built from the offset table — so rejected spectra are absent
from the body bytes as well. -/
theorem predicate_rejected_spectra_absent (preds : List SpectrumPredicate)
    (filters : List (SpectrumElem → Option SpectrumElem))
    (ts : SpectrumElem → List Char) (ml : List Char) (body : List BodyItem)
    (el : List Char) (st : PredEngState)
    (h : process_mzml_pred preds filters ts ml body el = some st) :
    st.spectrum_offsets = st.log.map (fun e => (e.id, e.offset)) ∧
    (∀ j : ℕ, (j, false) ∈ st.decisions →
      (∀ e ∈ st.log, e.src_idx ≠ j) ∧ st.writes[j]? = some []) ∧
    (∀ j : ℕ, (j, true) ∈ st.decisions → ∃ e ∈ st.log, e.src_idx = j) ∧
    st.out = indexedmzml_open ++ ml ++ st.writes.flatten ++ el ++
      index_trailer st.spectrum_offsets
        (indexedmzml_open ++ ml ++ st.writes.flatten ++ el).length := by
  cases hb : process_body_pred preds filters ts body
      { out := indexedmzml_open ++ ml, spectrum_offsets := [], log := [], window := [],
        pos := 0, decisions := [], writes := [] } with
  | none => simp only [process_mzml_pred, hb] at h; exact Option.noConfusion h
  | some st1 =>
    simp only [process_mzml_pred, hb, Option.map_some'] at h
    injection h with h1
    subst h1
    have hinv := process_body_pred_inv preds filters ts body (indexedmzml_open ++ ml)
      _ st1 hb (by simp) rfl rfl
      (by intro e he; exact absurd he (List.not_mem_nil e))
      (by intro p hp2; exact absurd hp2 (List.not_mem_nil p))
    refine ⟨hinv.2.2.1, ?_, ?_, ?_⟩
    · intro j hj
      exact (hinv.2.2.2.2 (j, false) hj).2.1 rfl
    · intro j hj
      exact (hinv.2.2.2.2 (j, true) hj).2.2 rfl
    · dsimp only
      rw [hinv.1, List.append_assoc]

/-- Witness for C3: three spectra of ms levels 1, 2, 1 gated by an
ms-level-1 predicate. -/
theorem predicate_rejected_spectra_absent_witness :
    c3_state.spectrum_offsets = c3_state.log.map (fun e => (e.id, e.offset)) ∧
    (∀ j : ℕ, (j, false) ∈ c3_state.decisions →
      (∀ e ∈ c3_state.log, e.src_idx ≠ j) ∧ c3_state.writes[j]? = some []) ∧
    (∀ j : ℕ, (j, true) ∈ c3_state.decisions → ∃ e ∈ c3_state.log, e.src_idx = j) ∧
    c3_state.out = indexedmzml_open ++ "<mzML>\n".data ++ c3_state.writes.flatten ++
      "</mzML>\n".data ++
      index_trailer c3_state.spectrum_offsets
        (indexedmzml_open ++ "<mzML>\n".data ++ c3_state.writes.flatten ++
          "</mzML>\n".data).length :=
  predicate_rejected_spectra_absent c3_preds [] id_serializer "<mzML>\n".data c3_body
    "</mzML>\n".data c3_state (by rfl)
